import Mathlib

/-!
Verification of the moneykit arithmetic and distribution engine.

This file is a shallow embedding, in Lean 4, of the calculator
(calculator.go) and of the Money operations of the package root file
(the Money value type, currency guard, Add/Subtract, Split, Allocate),
together with proofs about them.

Modelling conventions:
* Go int64 arithmetic is modelled on ℤ, with an explicit two's-complement
  wraparound (wrap64) applied wherever the Go code performs a native
  arithmetic operation that can overflow.
* Go runtime panics (integer division by zero, slice index out of range)
  are modelled by a dedicated result constructor GoResult.panicked,
  distinct from GoResult.err, which models an explicit error return
  value of the Go code.  Functions whose Go signature returns a pair
  (value, error) are modelled as Lean pairs.
* Go's / and % on int64 truncate toward zero: they are Int.tdiv and
  Int.tmod.  The single overflowing case MinInt64 / -1 wraps in Go
  (it does not panic), which wrap64 reproduces.
-/

namespace Moneykit

/-- Largest int64 value, 2^63 - 1 (math.MaxInt64 in the Go code). -/
def INT64_MAX : ℤ := 2 ^ 63 - 1

/-- Two's-complement wraparound of signed 64-bit arithmetic: maps any
integer to its representative in [-2^63, 2^63). -/
def wrap64 (x : ℤ) : ℤ := (x + 2 ^ 63) % 2 ^ 64 - 2 ^ 63

/-- The integer x is representable as a Go int64. -/
def inRange64 (x : ℤ) : Prop := -(2 ^ 63) ≤ x ∧ x < 2 ^ 63

instance (x : ℤ) : Decidable (inRange64 x) := by
  unfold inRange64; infer_instance

/-- Error values returned by the package: ErrCurrencyMismatch and the
errors.New values created inside Split and Allocate. -/
inductive MoneyError where
  | currencyMismatch
  | splitNonPositive
  | noRatiosSpecified
  | negativeRatio
  | ratioSumOverflow
  deriving DecidableEq, Repr

/-- Outcome of calling a Go function: a normal value, an explicit error
return, or a runtime panic (which aborts the process unless recovered,
and is not an error value handed to the caller). -/
inductive GoResult (α : Type) where
  | ok (val : α)
  | err (e : MoneyError)
  | panicked
  deriving DecidableEq, Repr

/-- True exactly when the outcome is an explicit error return (a Go
error value handed to the caller); a runtime panic is not one. -/
def GoResult.isError {α : Type} : GoResult α → Bool
  | .err _ => true
  | _ => false

namespace calculator

/-- add from calculator.go: a + b on int64. -/
def add (a b : ℤ) : ℤ := wrap64 (a + b)

/-- subtract from calculator.go: a - b on int64. -/
def subtract (a b : ℤ) : ℤ := wrap64 (a - b)

/-- multiply from calculator.go: a * m on int64. -/
def multiply (a m : ℤ) : ℤ := wrap64 (a * m)

/-- divide from calculator.go: truncating division a / d.  The Go
signature returns only Amount; a zero divisor is a runtime panic
(its own comment: "Panics if divisor is 0"). -/
def divide (a d : ℤ) : GoResult ℤ :=
  if d = 0 then .panicked else .ok (wrap64 (a.tdiv d))

/-- modulus from calculator.go: remainder a % d with the sign of the
dividend.  A zero divisor is a runtime panic. -/
def modulus (a d : ℤ) : GoResult ℤ :=
  if d = 0 then .panicked else .ok (a.tmod d)

/-- allocate from calculator.go: a * r / s, with 0 returned when a == 0
or s == 0.  The product a * r is a native int64 multiplication and can
wrap. -/
def allocate (a r s : ℤ) : ℤ :=
  if a = 0 ∨ s = 0 then 0 else wrap64 ((wrap64 (a * r)).tdiv s)

/-- absolute from calculator.go: -a if a < 0 else a.  The negation is
native int64 arithmetic, so absolute(MinInt64) wraps back to MinInt64. -/
def absolute (a : ℤ) : ℤ := if a < 0 then wrap64 (-a) else a

/-- negative from calculator.go: -a on int64. -/
def negative (a : ℤ) : ℤ := wrap64 (-a)

/-- factor := int64(math.Pow(10, float64(precision))) in calculator.go.
For 0 ≤ precision ≤ 18 the float64 computation is exact and the
conversion in range, giving exactly 10^precision.  For negative
precision math.Pow yields a value in (0,1) and the conversion truncates
to 0.  For precision ≥ 19 the conversion overflows int64; Go leaves the
result platform-defined and amd64 produces MinInt64. -/
def pow10Factor (precision : ℤ) : ℤ :=
  if precision < 0 then 0
  else if precision ≤ 18 then 10 ^ precision.toNat
  else -(2 ^ 63)

/-- round from calculator.go, line by line:

  if a == 0 { return 0 }
  absAmount := c.absolute(a)
  factor := int64(math.Pow(10, float64(precision)))
  remainder := absAmount % factor            -- native %, panics on factor == 0
  if remainder >= factor/2 { absAmount += factor }
  rounded := (absAmount / factor) * factor
  if a < 0 { return -rounded }
  return rounded
-/
def round (a precision : ℤ) : GoResult ℤ :=
  if a = 0 then .ok 0
  else
    let absAmount := absolute a
    let factor := pow10Factor precision
    if factor = 0 then .panicked
    else
      let remainder := absAmount.tmod factor
      let absAmount2 := if factor.tdiv 2 ≤ remainder then wrap64 (absAmount + factor)
                        else absAmount
      let rounded := wrap64 (absAmount2.tdiv factor * factor)
      .ok (if a < 0 then wrap64 (-rounded) else rounded)

end calculator

/-- Currency from currency.go.  The fields besides Code are formatting
metadata; currency equality, the only thing the arithmetic core reads,
compares Code alone. -/
structure Currency where
  Code        : String
  NumericCode : String
  Fraction    : ℤ
  Grapheme    : String
  Template    : String
  Decimal     : String
  Thousand    : String
  deriving DecidableEq, Repr

/-- equals from currency.go: c.Code == oc.Code, value equality of the
codes. -/
def Currency.equals (c oc : Currency) : Bool := c.Code == oc.Code

/-- The USD entry of the currencies registry in currency.go.  (The
registry's other entries are formatting metadata for the remaining
ISO-4217 codes; every claim proved here depends on currencies only
through Code equality.) -/
def USD : Currency :=
  { Code := "USD", NumericCode := "840", Fraction := 2, Grapheme := "$"
    Template := "$1", Decimal := ".", Thousand := "," }

/-- The EUR entry of the currencies registry in currency.go. -/
def EUR : Currency :=
  { Code := "EUR", NumericCode := "978", Fraction := 2, Grapheme := "€"
    Template := "$1", Decimal := ".", Thousand := "," }

/-- Money from the package root file: an int64 amount paired with its
currency. -/
structure Money where
  amount   : ℤ
  currency : Currency
  deriving DecidableEq, Repr

/-- SameCurrency: m.currency.equals(om.currency). -/
def Money.SameCurrency (m om : Money) : Bool := m.currency.equals om.currency

/-- assertSameCurrency: ErrCurrencyMismatch when the codes differ, nil
otherwise. -/
def Money.assertSameCurrency (m om : Money) : Option MoneyError :=
  if m.SameCurrency om then none else some .currencyMismatch

/-- compare: tri-state ordering of the two amounts (1, -1 or 0). -/
def Money.compare (m om : Money) : ℤ :=
  if om.amount < m.amount then 1
  else if m.amount < om.amount then -1
  else 0

/-- Equals: Go returns (bool, error); on currency mismatch the pair is
(false, ErrCurrencyMismatch), otherwise (compare == 0, nil). -/
def Money.Equals (m om : Money) : Bool × Option MoneyError :=
  match m.assertSameCurrency om with
  | some e => (false, some e)
  | none => (m.compare om == 0, none)

/-- GreaterThan: (false, ErrCurrencyMismatch) on mismatch, otherwise
(compare == 1, nil). -/
def Money.GreaterThan (m om : Money) : Bool × Option MoneyError :=
  match m.assertSameCurrency om with
  | some e => (false, some e)
  | none => (m.compare om == 1, none)

/-- LessThan: (false, ErrCurrencyMismatch) on mismatch, otherwise
(compare == -1, nil). -/
def Money.LessThan (m om : Money) : Bool × Option MoneyError :=
  match m.assertSameCurrency om with
  | some e => (false, some e)
  | none => (m.compare om == -1, none)

/-- Compare: Go returns (int, error); on currency mismatch it returns
(int(m.amount), ErrCurrencyMismatch) -- the anchor's raw amount sits in
the int slot of the error return -- otherwise (compare, nil). -/
def Money.Compare (m om : Money) : ℤ × Option MoneyError :=
  match m.assertSameCurrency om with
  | some e => (m.amount, some e)
  | none => (m.compare om, none)

/-- The operand loop shared by Add and Subtract: k starts as New(0,
m.currency.Code) -- only its amount, carried here, is ever read -- and
each operand is currency-checked then added into k; the loop returns at
the first mismatch, modelled as none. -/
def Money.addAccum (m : Money) : List Money → ℤ → Option ℤ
  | [], k => some k
  | m2 :: rest, k =>
    match m.assertSameCurrency m2 with
    | some _ => none
    | none => Money.addAccum m rest (calculator.add k m2.amount)

/-- Add from the package root file: with no operands it returns (m, nil)
unchanged; otherwise it sums the operand amounts (failing atomically
with (nil, ErrCurrencyMismatch) at the first differing currency) and
returns a new Money with amount m.amount + k. -/
def Money.Add (m : Money) (ms : List Money) : Option Money × Option MoneyError :=
  if ms.isEmpty then (some m, none)
  else
    match Money.addAccum m ms 0 with
    | none => (none, some .currencyMismatch)
    | some k => (some ⟨calculator.add m.amount k, m.currency⟩, none)

/-- Subtract from the package root file: identical to Add except the
final amount is m.amount - k. -/
def Money.Subtract (m : Money) (ms : List Money) : Option Money × Option MoneyError :=
  if ms.isEmpty then (some m, none)
  else
    match Money.addAccum m ms 0 with
    | none => (none, some .currencyMismatch)
    | some k => (some ⟨calculator.subtract m.amount k, m.currency⟩, none)

/-- The remainder-distribution loop shared by Split and Allocate:

  for p := 0; l != 0; p++ { ms[p].amount = add(ms[p].amount, v); l-- }

adds v to the amounts of the first cnt parts, one part per iteration.
The cursor p only ever increases -- there is no wrap back to index 0 --
so when cnt exceeds the number of parts the loop indexes past the end of
the slice: a runtime panic, modelled as none. -/
def addToFirstN (v : ℤ) : ℕ → List Money → Option (List Money)
  | 0, ms => some ms
  | _ + 1, [] => none
  | cnt + 1, p :: rest =>
    (addToFirstN v cnt rest).map fun tail =>
      Money.mk (calculator.add p.amount v) p.currency :: tail

/-- Split from the package root file: n <= 0 is an explicit error;
otherwise every part starts at amount / n and the first |amount % n|
parts get one extra smallest unit of the amount's sign. -/
def Money.Split (m : Money) (n : ℤ) : GoResult (List Money) :=
  if n ≤ 0 then .err .splitNonPositive
  else
    match calculator.divide m.amount n, calculator.modulus m.amount n with
    | .ok a, .ok r =>
      let ms := List.replicate n.toNat (Money.mk a m.currency)
      let l := (calculator.absolute r).toNat
      let v : ℤ := if m.amount < 0 then -1 else 1
      match addToFirstN v l ms with
      | some ms2 => .ok ms2
      | none => .panicked
    | _, _ => .panicked

/-- The ratio-validation loop of Allocate: each ratio must be
non-negative and the running sum must not pass math.MaxInt64
(the Go check is int64(r) > math.MaxInt64 - sum). -/
def Money.sumRatios : List ℤ → ℤ → GoResult ℤ
  | [], sum => .ok sum
  | r :: rest, sum =>
    if r < 0 then .err .negativeRatio
    else if INT64_MAX - sum < r then .err .ratioSumOverflow
    else Money.sumRatios rest (sum + r)

/-- Allocate from the package root file: validate the ratios, give each
party amount * r / sum, then hand out the truncation leftover
lo = amount - total one unit at a time starting from party 0 (the
native int64 additions accumulating total, and the subtraction, wrap).
A zero ratio sum returns the all-zero parts immediately. -/
def Money.Allocate (m : Money) (rs : List ℤ) : GoResult (List Money) :=
  if rs.isEmpty then .err .noRatiosSpecified
  else
    match Money.sumRatios rs 0 with
    | .err e => .err e
    | .panicked => .panicked
    | .ok sum =>
      let ms := rs.map fun r => Money.mk (calculator.allocate m.amount r sum) m.currency
      let total := (ms.map Money.amount).foldl (fun t x => wrap64 (t + x)) 0
      if sum = 0 then .ok ms
      else
        let lo := wrap64 (m.amount - total)
        let sub : ℤ := if lo < 0 then -1 else 1
        match addToFirstN sub lo.natAbs ms with
        | some ms2 => .ok ms2
        | none => .panicked

/-! ### Basic facts about the int64 model -/

lemma two_pow_63 : (2 : ℤ) ^ 63 = 9223372036854775808 := by norm_num

lemma two_pow_64 : (2 : ℤ) ^ 64 = 18446744073709551616 := by norm_num

lemma inRange64_iff {x : ℤ} :
    inRange64 x ↔ -9223372036854775808 ≤ x ∧ x < 9223372036854775808 := by
  unfold inRange64; rw [two_pow_63]

lemma wrap64_eq_self {x : ℤ} (h : inRange64 x) : wrap64 x = x := by
  rw [inRange64_iff] at h
  unfold wrap64
  rw [two_pow_63, two_pow_64, Int.emod_eq_of_lt (by omega) (by omega)]
  omega

lemma tmod_neg_dividend (a b : ℤ) : (-a).tmod b = -(a.tmod b) := by
  have h1 := Int.tdiv_add_tmod a b
  have h2 := Int.tdiv_add_tmod (-a) b
  rw [Int.neg_tdiv, mul_neg] at h2
  linarith

lemma tmod_nonpos {a : ℤ} (b : ℤ) (ha : a ≤ 0) : a.tmod b ≤ 0 := by
  have h := Int.tmod_nonneg b (neg_nonneg.mpr ha)
  rw [tmod_neg_dividend] at h
  linarith

lemma neg_lt_tmod {a b : ℤ} (_ha : a ≤ 0) (hb : 0 < b) : -b < a.tmod b := by
  have h := Int.tmod_lt_of_pos (-a) hb
  rw [tmod_neg_dividend] at h
  linarith

lemma tdiv_nonneg' {a b : ℤ} (ha : 0 ≤ a) (hb : 0 ≤ b) : 0 ≤ a.tdiv b := by
  rw [Int.tdiv_eq_ediv ha hb]
  exact Int.ediv_nonneg ha hb

lemma tdiv_nonpos' {a b : ℤ} (ha : a ≤ 0) (hb : 0 ≤ b) : a.tdiv b ≤ 0 := by
  have h := tdiv_nonneg' (neg_nonneg.mpr ha) hb
  rw [Int.neg_tdiv] at h
  linarith

lemma tdiv_le_self' {a b : ℤ} (ha : 0 ≤ a) (hb : 0 ≤ b) : a.tdiv b ≤ a := by
  rw [Int.tdiv_eq_ediv ha hb]
  exact Int.ediv_le_self b ha

lemma self_le_tdiv {a b : ℤ} (ha : a ≤ 0) (hb : 0 ≤ b) : a ≤ a.tdiv b := by
  have h := tdiv_le_self' (neg_nonneg.mpr ha) hb
  rw [Int.neg_tdiv] at h
  linarith

lemma tdiv_inRange {x S : ℤ} (hS : 0 < S) (hx : inRange64 x) : inRange64 (x.tdiv S) := by
  rw [inRange64_iff] at hx ⊢
  rcases le_or_lt 0 x with h | h
  · have h1 := tdiv_nonneg' h hS.le
    have h2 := tdiv_le_self' h hS.le
    omega
  · have h1 := tdiv_nonpos' h.le hS.le
    have h2 := self_le_tdiv h.le hS.le
    omega

lemma tmod_inRange {x S : ℤ} (hS : 0 < S) (hSmax : S ≤ INT64_MAX) :
    inRange64 (x.tmod S) := by
  rw [inRange64_iff]
  unfold INT64_MAX at hSmax
  rw [two_pow_63] at hSmax
  rcases le_or_lt 0 x with h | h
  · have h1 := Int.tmod_nonneg S h
    have h2 := Int.tmod_lt_of_pos x hS
    omega
  · have h1 := tmod_nonpos S h.le
    have h2 := neg_lt_tmod h.le hS
    omega

/-! ### List bookkeeping lemmas -/

lemma list_sum_nonpos : ∀ (xs : List ℤ), (∀ x ∈ xs, x ≤ 0) → xs.sum ≤ 0
  | [], _ => by simp
  | x :: xs, h => by
    have hx : x ≤ 0 := h x (by simp)
    have hxs := list_sum_nonpos xs (fun y hy => h y (by simp [hy]))
    simp only [List.sum_cons]
    linarith

lemma sum_le_of_all_nonpos (xs : List ℤ) (h : ∀ x ∈ xs, x ≤ 0) : ∀ x ∈ xs, xs.sum ≤ x := by
  induction xs with
  | nil => intro x hx; cases hx
  | cons y ys ih =>
    intro x hx
    have hy : y ≤ 0 := h y (by simp)
    have hys : ∀ z ∈ ys, z ≤ 0 := fun z hz => h z (by simp [hz])
    have hsum : ys.sum ≤ 0 := list_sum_nonpos ys hys
    rcases List.mem_cons.mp hx with rfl | hx2
    · simp only [List.sum_cons]; linarith
    · have := ih hys x hx2
      simp only [List.sum_cons]; linarith

lemma sum_le_length_mul (xs : List ℤ) (c : ℤ) (h : ∀ x ∈ xs, x ≤ c) :
    xs.sum ≤ xs.length * c := by
  have := List.sum_le_card_nsmul xs c h
  rwa [nsmul_eq_mul] at this

lemma length_mul_le_sum (xs : List ℤ) (c : ℤ) (h : ∀ x ∈ xs, c ≤ x) :
    xs.length * c ≤ xs.sum := by
  have := List.card_nsmul_le_sum xs c h
  rwa [nsmul_eq_mul] at this

/-- Accumulating a list with wrapping int64 addition agrees with the exact
integer sum as long as all elements are non-negative and the final total
stays below 2^63. -/
lemma foldl_wrapAdd_nonneg :
    ∀ (xs : List ℤ) (acc : ℤ), (∀ x ∈ xs, 0 ≤ x) → 0 ≤ acc →
      acc + xs.sum < 2 ^ 63 →
      xs.foldl (fun t x => wrap64 (t + x)) acc = acc + xs.sum
  | [], acc, _, _, _ => by simp
  | x :: xs, acc, hx, hacc, htop => by
    have hx0 : 0 ≤ x := hx x (by simp)
    have hxs : ∀ y ∈ xs, 0 ≤ y := fun y hy => hx y (by simp [hy])
    have hsum : 0 ≤ xs.sum := List.sum_nonneg hxs
    rw [two_pow_63] at htop
    simp only [List.sum_cons] at htop ⊢
    have hr : inRange64 (acc + x) := by rw [inRange64_iff]; omega
    simp only [List.foldl_cons, wrap64_eq_self hr]
    rw [foldl_wrapAdd_nonneg xs (acc + x) hxs (by omega) (by rw [two_pow_63]; omega)]
    ring

/-- Mirror image of foldl_wrapAdd_nonneg for non-positive elements. -/
lemma foldl_wrapAdd_nonpos :
    ∀ (xs : List ℤ) (acc : ℤ), (∀ x ∈ xs, x ≤ 0) → acc ≤ 0 →
      -(2 ^ 63) ≤ acc + xs.sum →
      xs.foldl (fun t x => wrap64 (t + x)) acc = acc + xs.sum
  | [], acc, _, _, _ => by simp
  | x :: xs, acc, hx, hacc, hbot => by
    have hx0 : x ≤ 0 := hx x (by simp)
    have hxs : ∀ y ∈ xs, y ≤ 0 := fun y hy => hx y (by simp [hy])
    have hsum : xs.sum ≤ 0 := list_sum_nonpos xs hxs
    rw [two_pow_63] at hbot
    simp only [List.sum_cons] at hbot ⊢
    have hr : inRange64 (acc + x) := by rw [inRange64_iff]; omega
    simp only [List.foldl_cons, wrap64_eq_self hr]
    rw [foldl_wrapAdd_nonpos xs (acc + x) hxs (by omega) (by rw [two_pow_63]; omega)]
    ring

/-- When the count does not exceed the number of parts and every updated
amount stays in range, the distribution loop succeeds; it preserves length
and currencies and adds exactly count * v to the total amount. -/
lemma addToFirstN_ok (v : ℤ) :
    ∀ (cnt : ℕ) (ms : List Money), cnt ≤ ms.length →
      (∀ p ∈ ms, inRange64 (p.amount + v)) →
      ∃ ms2, addToFirstN v cnt ms = some ms2 ∧
        ms2.length = ms.length ∧
        (ms2.map Money.amount).sum = (ms.map Money.amount).sum + cnt * v ∧
        ms2.map Money.currency = ms.map Money.currency
  | 0, ms, _, _ => ⟨ms, rfl, rfl, by simp, rfl⟩
  | cnt + 1, [], h, _ => absurd h (by simp)
  | cnt + 1, p :: rest, h, hin => by
    obtain ⟨tail, ht, hlen, hsum, hcur⟩ :=
      addToFirstN_ok v cnt rest (by simpa using h)
        (fun q hq => hin q (by simp [hq]))
    have hp : calculator.add p.amount v = p.amount + v :=
      wrap64_eq_self (hin p (by simp))
    refine ⟨Money.mk (calculator.add p.amount v) p.currency :: tail, ?_, ?_, ?_, ?_⟩
    · simp [addToFirstN, ht]
    · simp [hlen]
    · simp only [List.map_cons, List.sum_cons, hp, hsum]
      push_cast
      ring
    · simp [hcur]

/-- Closed form of the distribution loop on a constant list (the Split
case): the first cnt parts get v added, the rest stay. -/
lemma addToFirstN_replicate (v b : ℤ) (c : Currency) :
    ∀ (cnt n : ℕ), cnt ≤ n → inRange64 (b + v) →
      addToFirstN v cnt (List.replicate n (Money.mk b c)) =
        some (List.replicate cnt (Money.mk (b + v) c) ++
              List.replicate (n - cnt) (Money.mk b c))
  | 0, n, _, _ => by simp [addToFirstN]
  | cnt + 1, 0, h, _ => absurd h (by omega)
  | cnt + 1, n + 1, h, hr => by
    rw [List.replicate_succ]
    have hrec := addToFirstN_replicate v b c cnt n (by omega) hr
    have hp : calculator.add b v = b + v := wrap64_eq_self hr
    simp only [addToFirstN, hrec, Option.map_some', hp]
    rw [List.replicate_succ]
    simp

/-! ### Allocate: exact arithmetic under no-overflow hypotheses -/

/-- Without overflow of the product, calculator.allocate is the exact
truncated division (a * r) / s. -/
lemma allocate_eq_tdiv {a r S : ℤ} (hS : 0 < S) (hp : inRange64 (a * r)) :
    calculator.allocate a r S = (a * r).tdiv S := by
  unfold calculator.allocate
  by_cases ha : a = 0
  · simp [ha, Int.zero_tdiv]
  · have hS0 : ¬S = 0 := by omega
    simp only [ha, hS0, or_self, if_false]
    rw [wrap64_eq_self hp, wrap64_eq_self (tdiv_inRange hS hp)]

/-- Summing the truncated quotients over the ratio list: the sum is the
exact proportional total minus the sum of the remainders. -/
lemma mul_tdiv_sum_eq (a S : ℤ) :
    ∀ rs : List ℤ,
      S * ((rs.map fun r => (a * r).tdiv S).sum)
        = a * rs.sum - (rs.map fun r => (a * r).tmod S).sum
  | [] => by simp
  | r :: rs => by
    have h := Int.tdiv_add_tmod (a * r) S
    have ih := mul_tdiv_sum_eq a S rs
    simp only [List.map_cons, List.sum_cons, mul_add]
    linarith

/-- Bounds on the remainder sum for a non-negative amount. -/
lemma tmod_sum_bounds_nonneg {a S : ℤ} (rs : List ℤ) (ha : 0 ≤ a) (hS : 0 < S)
    (hnn : ∀ r ∈ rs, 0 ≤ r) :
    0 ≤ (rs.map fun r => (a * r).tmod S).sum ∧
      (rs.map fun r => (a * r).tmod S).sum ≤ rs.length * (S - 1) := by
  constructor
  · refine List.sum_nonneg ?_
    intro x hx
    obtain ⟨r, hr, rfl⟩ := List.mem_map.mp hx
    exact Int.tmod_nonneg S (mul_nonneg ha (hnn r hr))
  · have h := sum_le_length_mul (rs.map fun r => (a * r).tmod S) (S - 1) ?_
    · simpa using h
    · intro x hx
      obtain ⟨r, hr, rfl⟩ := List.mem_map.mp hx
      have := Int.tmod_lt_of_pos (a * r) hS
      omega

/-- Bounds on the remainder sum for a non-positive amount. -/
lemma tmod_sum_bounds_nonpos {a S : ℤ} (rs : List ℤ) (ha : a ≤ 0) (hS : 0 < S)
    (hnn : ∀ r ∈ rs, 0 ≤ r) :
    -(rs.length * (S - 1)) ≤ (rs.map fun r => (a * r).tmod S).sum ∧
      (rs.map fun r => (a * r).tmod S).sum ≤ 0 := by
  constructor
  · have h := length_mul_le_sum (rs.map fun r => (a * r).tmod S) (-(S - 1)) ?_
    · simp only [List.length_map] at h
      linarith [h]
    · intro x hx
      obtain ⟨r, hr, rfl⟩ := List.mem_map.mp hx
      have := neg_lt_tmod (mul_nonpos_of_nonpos_of_nonneg ha (hnn r hr)) hS
      omega
  · refine list_sum_nonpos _ ?_
    intro x hx
    obtain ⟨r, hr, rfl⟩ := List.mem_map.mp hx
    exact tmod_nonpos S (mul_nonpos_of_nonpos_of_nonneg ha (hnn r hr))

/-- The ratio-validation loop accepts a list of non-negative ratios whose
total stays at or below math.MaxInt64, and returns their sum. -/
lemma sumRatios_ok :
    ∀ (rs : List ℤ) (acc : ℤ), (∀ r ∈ rs, 0 ≤ r) → 0 ≤ acc →
      acc + rs.sum ≤ INT64_MAX →
      Money.sumRatios rs acc = .ok (acc + rs.sum)
  | [], acc, _, _, _ => by simp [Money.sumRatios]
  | r :: rs, acc, hnn, hacc, htop => by
    have hr : 0 ≤ r := hnn r (by simp)
    have hrs : ∀ x ∈ rs, 0 ≤ x := fun x hx => hnn x (by simp [hx])
    have hsum : 0 ≤ rs.sum := List.sum_nonneg hrs
    simp only [List.sum_cons] at htop
    have h1 : ¬r < 0 := by omega
    have h2 : ¬INT64_MAX - acc < r := by omega
    rw [Money.sumRatios, if_neg h1, if_neg h2,
      sumRatios_ok rs (acc + r) hrs (by omega) (by omega)]
    congr 1
    simp only [List.sum_cons]
    ring

/-- Main correctness lemma for Allocate: with a non-empty list of
non-negative ratios, a positive non-overflowing ratio sum, and no
overflow in any product amount * ratio, Allocate returns exactly
len(rs) parts carrying the original currency whose amounts add up to
the original amount. -/
lemma Allocate_ok (m : Money) (rs : List ℤ)
    (hne : rs ≠ [])
    (hnn : ∀ r ∈ rs, 0 ≤ r)
    (hsmax : rs.sum ≤ INT64_MAX)
    (hpos : 0 < rs.sum)
    (ha : inRange64 m.amount)
    (hprod : ∀ r ∈ rs, inRange64 (m.amount * r)) :
    ∃ parts, Money.Allocate m rs = .ok parts ∧
      (parts.map Money.amount).sum = m.amount ∧
      parts.length = rs.length ∧
      parts.map Money.currency = List.replicate rs.length m.currency := by
  have hn1 : 0 < rs.length := List.length_pos.mpr hne
  have hempty : rs.isEmpty = false := by simp [hne]
  have hok : Money.sumRatios rs 0 = .ok rs.sum := by
    simpa using sumRatios_ok rs 0 hnn le_rfl (by simpa using hsmax)
  have hms : (rs.map fun r => Money.mk (calculator.allocate m.amount r rs.sum) m.currency)
      = rs.map fun r => Money.mk ((m.amount * r).tdiv rs.sum) m.currency :=
    List.map_congr_left fun r hr => by rw [allocate_eq_tdiv hpos (hprod r hr)]
  have hamounts :
      ((rs.map fun r => Money.mk ((m.amount * r).tdiv rs.sum) m.currency).map Money.amount)
        = rs.map fun r => (m.amount * r).tdiv rs.sum := by
    rw [List.map_map]; rfl
  have hcurs :
      ((rs.map fun r => Money.mk ((m.amount * r).tdiv rs.sum) m.currency).map Money.currency)
        = List.replicate rs.length m.currency := by
    rw [List.map_map]
    exact List.map_const rs m.currency
  have key := mul_tdiv_sum_eq m.amount rs.sum rs
  have hra : inRange64 m.amount := ha
  rw [inRange64_iff] at hra
  simp only [Money.Allocate, hempty, Bool.false_eq_true, if_false, hok, hms]
  have hSne : ¬rs.sum = 0 := by omega
  simp only [hSne, if_false]
  rcases le_or_lt 0 m.amount with hsign | hsign
  · -- non-negative amount: every part is non-negative
    have hq : ∀ x ∈ rs.map fun r => (m.amount * r).tdiv rs.sum, 0 ≤ x := by
      intro x hx
      obtain ⟨r, hr, rfl⟩ := List.mem_map.mp hx
      exact tdiv_nonneg' (mul_nonneg hsign (hnn r hr)) hpos.le
    have hQ0 : 0 ≤ (rs.map fun r => (m.amount * r).tdiv rs.sum).sum :=
      List.sum_nonneg hq
    obtain ⟨hR0, hRn⟩ := tmod_sum_bounds_nonneg rs hsign hpos hnn
    have hSlo : rs.sum * (m.amount - (rs.map fun r => (m.amount * r).tdiv rs.sum).sum)
        = (rs.map fun r => (m.amount * r).tmod rs.sum).sum := by
      rw [mul_sub]; linarith
    have hlo0 : 0 ≤ m.amount - (rs.map fun r => (m.amount * r).tdiv rs.sum).sum :=
      (mul_nonneg_iff_of_pos_left hpos).mp (by rw [hSlo]; exact hR0)
    have hlon : m.amount - (rs.map fun r => (m.amount * r).tdiv rs.sum).sum < rs.length := by
      have h1 : rs.sum * (m.amount - (rs.map fun r => (m.amount * r).tdiv rs.sum).sum)
          < rs.sum * rs.length := by
        rw [hSlo]
        calc (rs.map fun r => (m.amount * r).tmod rs.sum).sum
            ≤ rs.length * (rs.sum - 1) := hRn
          _ < rs.sum * rs.length := by nlinarith
      exact lt_of_mul_lt_mul_left h1 hpos.le
    have htotal : (rs.map fun r => (m.amount * r).tdiv rs.sum).foldl
        (fun t x => wrap64 (t + x)) 0 = (rs.map fun r => (m.amount * r).tdiv rs.sum).sum := by
      have := foldl_wrapAdd_nonneg (rs.map fun r => (m.amount * r).tdiv rs.sum) 0 hq le_rfl
        (by rw [two_pow_63]; omega)
      simpa using this
    rw [hamounts, htotal]
    have hwlo : wrap64 (m.amount - (rs.map fun r => (m.amount * r).tdiv rs.sum).sum)
        = m.amount - (rs.map fun r => (m.amount * r).tdiv rs.sum).sum := by
      apply wrap64_eq_self
      rw [inRange64_iff]
      omega
    rw [hwlo, if_neg (by omega :
      ¬(m.amount - (rs.map fun r => (m.amount * r).tdiv rs.sum).sum < 0))]
    rcases eq_or_lt_of_le hlo0 with heq | hlt
    · -- no leftover: the loop body never runs
      have hcnt0 : (m.amount - (rs.map fun r => (m.amount * r).tdiv rs.sum).sum).natAbs = 0 := by
        omega
      rw [hcnt0]
      refine ⟨_, rfl, ?_, by simp, hcurs⟩
      rw [hamounts]
      omega
    · -- positive leftover, strictly smaller than the number of parts
      have hcnt : (m.amount - (rs.map fun r => (m.amount * r).tdiv rs.sum).sum).natAbs
          ≤ (rs.map fun r => Money.mk ((m.amount * r).tdiv rs.sum) m.currency).length := by
        rw [List.length_map]
        omega
      have hin : ∀ p ∈ rs.map fun r => Money.mk ((m.amount * r).tdiv rs.sum) m.currency,
          inRange64 (p.amount + 1) := by
        intro p hp
        obtain ⟨r, hr, rfl⟩ := List.mem_map.mp hp
        dsimp only
        have h1 : 0 ≤ (m.amount * r).tdiv rs.sum :=
          tdiv_nonneg' (mul_nonneg hsign (hnn r hr)) hpos.le
        have h2 : (m.amount * r).tdiv rs.sum
            ≤ (rs.map fun r => (m.amount * r).tdiv rs.sum).sum :=
          List.single_le_sum hq _ (List.mem_map_of_mem _ hr)
        rw [inRange64_iff]
        omega
      obtain ⟨ms2, hms2, hlen2, hsum2, hcur2⟩ := addToFirstN_ok 1 _ _ hcnt hin
      rw [hms2]
      refine ⟨ms2, rfl, ?_, ?_, ?_⟩
      · rw [hsum2, hamounts]
        omega
      · rw [hlen2, List.length_map]
      · rw [hcur2, hcurs]
  · -- negative amount: every part is non-positive
    have hq : ∀ x ∈ rs.map fun r => (m.amount * r).tdiv rs.sum, x ≤ 0 := by
      intro x hx
      obtain ⟨r, hr, rfl⟩ := List.mem_map.mp hx
      exact tdiv_nonpos' (mul_nonpos_of_nonpos_of_nonneg hsign.le (hnn r hr)) hpos.le
    have hQ0 : (rs.map fun r => (m.amount * r).tdiv rs.sum).sum ≤ 0 :=
      list_sum_nonpos _ hq
    obtain ⟨hRn, hR0⟩ := tmod_sum_bounds_nonpos rs hsign.le hpos hnn
    have hSlo : rs.sum * (m.amount - (rs.map fun r => (m.amount * r).tdiv rs.sum).sum)
        = (rs.map fun r => (m.amount * r).tmod rs.sum).sum := by
      rw [mul_sub]; linarith
    have hlo0 : m.amount - (rs.map fun r => (m.amount * r).tdiv rs.sum).sum ≤ 0 := by
      nlinarith
    have hlon : -(rs.length : ℤ) < m.amount - (rs.map fun r => (m.amount * r).tdiv rs.sum).sum := by
      have h1 : rs.sum * (-(rs.length : ℤ))
          < rs.sum * (m.amount - (rs.map fun r => (m.amount * r).tdiv rs.sum).sum) := by
        rw [hSlo]
        calc rs.sum * (-(rs.length : ℤ)) < -((rs.length : ℤ) * (rs.sum - 1)) := by nlinarith
          _ ≤ (rs.map fun r => (m.amount * r).tmod rs.sum).sum := hRn
      exact lt_of_mul_lt_mul_left h1 hpos.le
    have htotal : (rs.map fun r => (m.amount * r).tdiv rs.sum).foldl
        (fun t x => wrap64 (t + x)) 0 = (rs.map fun r => (m.amount * r).tdiv rs.sum).sum := by
      have := foldl_wrapAdd_nonpos (rs.map fun r => (m.amount * r).tdiv rs.sum) 0 hq le_rfl
        (by rw [two_pow_63]; omega)
      simpa using this
    rw [hamounts, htotal]
    have hwlo : wrap64 (m.amount - (rs.map fun r => (m.amount * r).tdiv rs.sum).sum)
        = m.amount - (rs.map fun r => (m.amount * r).tdiv rs.sum).sum := by
      apply wrap64_eq_self
      rw [inRange64_iff]
      omega
    rw [hwlo]
    rcases eq_or_lt_of_le hlo0 with heq | hlt
    · -- no leftover
      have hcnt0 : (m.amount - (rs.map fun r => (m.amount * r).tdiv rs.sum).sum).natAbs = 0 := by
        omega
      rw [hcnt0]
      refine ⟨_, rfl, ?_, by simp, hcurs⟩
      rw [hamounts]
      omega
    · -- negative leftover, magnitude strictly smaller than the number of parts
      rw [if_pos hlt]
      have hcnt : (m.amount - (rs.map fun r => (m.amount * r).tdiv rs.sum).sum).natAbs
          ≤ (rs.map fun r => Money.mk ((m.amount * r).tdiv rs.sum) m.currency).length := by
        rw [List.length_map]
        omega
      have hin : ∀ p ∈ rs.map fun r => Money.mk ((m.amount * r).tdiv rs.sum) m.currency,
          inRange64 (p.amount + -1) := by
        intro p hp
        obtain ⟨r, hr, rfl⟩ := List.mem_map.mp hp
        dsimp only
        have h1 : (m.amount * r).tdiv rs.sum ≤ 0 :=
          tdiv_nonpos' (mul_nonpos_of_nonpos_of_nonneg hsign.le (hnn r hr)) hpos.le
        have h2 : (rs.map fun r => (m.amount * r).tdiv rs.sum).sum
            ≤ (m.amount * r).tdiv rs.sum :=
          sum_le_of_all_nonpos _ hq _ (List.mem_map_of_mem _ hr)
        rw [inRange64_iff]
        omega
      obtain ⟨ms2, hms2, hlen2, hsum2, hcur2⟩ := addToFirstN_ok (-1) _ _ hcnt hin
      rw [hms2]
      refine ⟨ms2, rfl, ?_, ?_, ?_⟩
      · rw [hsum2, hamounts]
        omega
      · rw [hlen2, List.length_map]
      · rw [hcur2, hcurs]

/-! ### Split: closed form of the result -/

lemma absolute_eq {x : ℤ} (h1 : -(2 ^ 63) < x) (h2 : x < 2 ^ 63) :
    calculator.absolute x = |x| := by
  unfold calculator.absolute
  rw [two_pow_63] at h1 h2
  rcases lt_or_le x 0 with h | h
  · rw [if_pos h, wrap64_eq_self (by rw [inRange64_iff]; omega), abs_of_neg h]
  · rw [if_neg (by omega), abs_of_nonneg h]

/-- Closed form of Split for a positive count: the first |amount % n|
parts are amount / n plus one signed unit, the rest are amount / n. -/
lemma Split_ok (m : Money) (n : ℤ) (hn : 0 < n) (hmax : n ≤ INT64_MAX)
    (ha : inRange64 m.amount) :
    Money.Split m n =
      .ok (List.replicate (m.amount.tmod n).natAbs
             (Money.mk (m.amount.tdiv n + if m.amount < 0 then -1 else 1) m.currency) ++
           List.replicate (n.toNat - (m.amount.tmod n).natAbs)
             (Money.mk (m.amount.tdiv n) m.currency)) := by
  have hmax' : n ≤ 2 ^ 63 - 1 := hmax
  rw [two_pow_63] at hmax'
  have hr_lt : m.amount.tmod n < n := Int.tmod_lt_of_pos m.amount hn
  have hr_gt : -n < m.amount.tmod n := by
    rcases le_or_lt 0 m.amount with h | h
    · have := Int.tmod_nonneg n h
      omega
    · exact neg_lt_tmod h.le hn
  simp only [Money.Split, if_neg (by omega : ¬n ≤ 0), calculator.divide,
    calculator.modulus, if_neg (by omega : ¬n = 0)]
  rw [wrap64_eq_self (tdiv_inRange hn ha)]
  rw [absolute_eq (by rw [two_pow_63]; omega) (by rw [two_pow_63]; omega),
    Int.abs_eq_natAbs, Int.toNat_natCast]
  rcases Nat.eq_zero_or_pos (m.amount.tmod n).natAbs with hc0 | hcpos
  · rw [hc0]
    simp [addToFirstN]
  · have htdt := Int.tdiv_add_tmod m.amount n
    have hne1 : n ≠ 1 := by
      intro h
      rw [h, Int.tmod_one] at hcpos
      simp at hcpos
    have hn2 : 2 ≤ n := by omega
    have hr_in : inRange64 (m.amount.tdiv n + if m.amount < 0 then -1 else 1) := by
      rcases lt_or_le m.amount 0 with hA | hA
      · rw [if_pos hA]
        have hq0 : m.amount.tdiv n ≤ 0 := tdiv_nonpos' hA.le hn.le
        have hrle : m.amount.tmod n ≤ 0 := tmod_nonpos n hA.le
        have hprod : n * m.amount.tdiv n - 2 * m.amount.tdiv n ≤ 0 := by
          have := mul_nonpos_of_nonneg_of_nonpos (by omega : (0:ℤ) ≤ n - 2) hq0
          linarith [this]
        rw [inRange64_iff] at ha ⊢
        omega
      · rw [if_neg (by omega)]
        have hq0 : 0 ≤ m.amount.tdiv n := tdiv_nonneg' hA hn.le
        have hrge : 0 ≤ m.amount.tmod n := Int.tmod_nonneg n hA
        have hprod : 0 ≤ n * m.amount.tdiv n - 2 * m.amount.tdiv n := by
          have := mul_nonneg (by omega : (0:ℤ) ≤ n - 2) hq0
          linarith [this]
        rw [inRange64_iff] at ha ⊢
        omega
    have hcnt : (m.amount.tmod n).natAbs ≤ n.toNat := by omega
    rw [addToFirstN_replicate _ _ _ _ _ hcnt hr_in]

/-! ### Currency guard helpers -/

/-- The operand loop returns at the first operand whose currency differs
from the anchor's, producing no sum. -/
lemma addAccum_none (m : Money) :
    ∀ (ms : List Money) (k : ℤ),
      (∃ x ∈ ms, m.currency.equals x.currency = false) →
      Money.addAccum m ms k = none
  | [], _, h => absurd h (by simp)
  | m2 :: rest, k, h => by
    by_cases hc : m.SameCurrency m2
    · have hrest : ∃ x ∈ rest, m.currency.equals x.currency = false := by
        obtain ⟨x, hx, hxe⟩ := h
        rcases List.mem_cons.mp hx with rfl | hx2
        · exact absurd hc (by simp [Money.SameCurrency, hxe])
        · exact ⟨x, hx2, hxe⟩
      simp [Money.addAccum, Money.assertSameCurrency, hc,
        addAccum_none m rest _ hrest]
    · simp [Money.addAccum, Money.assertSameCurrency, hc]

/-- Element lookup in the concatenation of two constant runs. -/
lemma get_replicate_append {α : Type} (x y : α) (k l i : ℕ)
    (h : i < (List.replicate k x ++ List.replicate l y).length) :
    (List.replicate k x ++ List.replicate l y).get ⟨i, h⟩ = if i < k then x else y := by
  rcases lt_or_le i k with hik | hik
  · rw [if_pos hik, List.get_eq_getElem,
      List.getElem_append_left (by simpa using hik), List.getElem_replicate]
  · rw [if_neg (by omega), List.get_eq_getElem,
      List.getElem_append_right (by simpa using hik), List.getElem_replicate]

/-! ### The claims -/

/-- Claim C8 (confirmed): every binary operation between two Money
values whose currency identities differ fails with the CurrencyMismatch
error: the comparison operations return the Go zero value false with the
error (no comparison is computed), Compare returns the error (its int
slot merely echoes the anchor's amount, which Go callers discard on a
non-nil error), and Add and Subtract with any mismatching operand in
the list fail atomically with a nil Money and the error -- no partial
sum is returned.  Operands are never written to: both are left
unchanged (the embedding is pure because the Go code only writes to
the fresh accumulator k). -/
theorem currency_guard (m om : Money) (ms : List Money)
    (h : m.currency.equals om.currency = false)
    (hms : ∃ x ∈ ms, m.currency.equals x.currency = false) :
    m.Equals om = (false, some .currencyMismatch) ∧
    m.GreaterThan om = (false, some .currencyMismatch) ∧
    m.LessThan om = (false, some .currencyMismatch) ∧
    m.Compare om = (m.amount, some .currencyMismatch) ∧
    m.Add ms = (none, some .currencyMismatch) ∧
    m.Subtract ms = (none, some .currencyMismatch) := by
  have hassert : m.assertSameCurrency om = some .currencyMismatch := by
    simp [Money.assertSameCurrency, Money.SameCurrency, h]
  have hmsne : ms.isEmpty = false := by
    obtain ⟨x, hx, -⟩ := hms
    cases ms
    · cases hx
    · rfl
  have haccum : Money.addAccum m ms 0 = none := addAccum_none m ms 0 hms
  refine ⟨?_, ?_, ?_, ?_, ?_, ?_⟩ <;>
    simp [Money.Equals, Money.GreaterThan, Money.LessThan, Money.Compare,
      Money.Add, Money.Subtract, hassert, hmsne, haccum]

/-- Witness for currency_guard: 100 USD against 100 EUR. -/
theorem currency_guard_witness :
    (USD.equals EUR = false) ∧
    (Money.Equals ⟨100, USD⟩ ⟨100, EUR⟩ = (false, some .currencyMismatch) ∧
     Money.GreaterThan ⟨100, USD⟩ ⟨100, EUR⟩ = (false, some .currencyMismatch) ∧
     Money.LessThan ⟨100, USD⟩ ⟨100, EUR⟩ = (false, some .currencyMismatch) ∧
     Money.Compare ⟨100, USD⟩ ⟨100, EUR⟩ = (100, some .currencyMismatch) ∧
     Money.Add ⟨100, USD⟩ [⟨200, USD⟩, ⟨100, EUR⟩] = (none, some .currencyMismatch) ∧
     Money.Subtract ⟨100, USD⟩ [⟨200, USD⟩, ⟨100, EUR⟩] = (none, some .currencyMismatch)) :=
  ⟨by decide,
    currency_guard ⟨100, USD⟩ ⟨100, EUR⟩ [⟨200, USD⟩, ⟨100, EUR⟩] (by decide)
      ⟨⟨100, EUR⟩, by simp, by decide⟩⟩

/-- Claim C9 counterexample: at a = 5, d = 0 both divide and modulus end
in a runtime panic -- the Go division-by-zero panic, as the code's own
comments state ("Panics if divisor is 0") -- and no explicit error
value is produced for the caller, contradicting the claim of a
recoverable DivisionByZero error result. -/
theorem divide_modulus_by_zero_no_error_return :
    calculator.divide 5 0 = .panicked ∧ calculator.modulus 5 0 = .panicked ∧
      (calculator.divide 5 0).isError = false ∧
      (calculator.modulus 5 0).isError = false := by decide

/-- Claim C9 (corrected): for every amount a, divide(a, 0) and
modulus(a, 0) are runtime panics (Go division by zero), a process-fatal
condition unless recovered; the calculator's signatures have no error
channel and no DivisionByZero error value is returned to the caller. -/
theorem divide_modulus_by_zero_panic (a : ℤ) :
    calculator.divide a 0 = .panicked ∧ calculator.modulus a 0 = .panicked ∧
      (calculator.divide a 0).isError = false ∧
      (calculator.modulus a 0).isError = false := by
  simp [calculator.divide, calculator.modulus, GoResult.isError]

/-- Claim C10 (confirmed): Add with zero operands (and Subtract with
zero operands) returns the receiver itself -- same amount, same
currency -- and a nil error, rather than failing. -/
theorem add_subtract_empty_identity (m : Money) :
    m.Add [] = (some m, none) ∧ m.Subtract [] = (some m, none) := by
  simp [Money.Add, Money.Subtract]

/-- Claim C5 (code bug): round(a, 0) does not return a unchanged.  With
precision 0 the factor is 1, so the remainder is always 0 and the Go
test remainder >= factor/2 is 0 >= 0, which always fires: every
non-zero amount is pushed one whole unit away from zero.  round(5, 0)
is 6, not 5, and round(-5, 0) is -6. -/
theorem round_zero_precision_not_identity :
    calculator.round 5 0 = .ok 6 ∧ calculator.round (-5) 0 = .ok (-6) := by decide

/-- Claim C6 (code bug): round(1235, 2) returns 1200, not the 1240
required by the claim and by the function's own doc comment, and
round(1234, 2) returns 1200, not 1230: with precision 2 the code
truncates to a multiple of 10^2 = 100, and the remainder 35 (resp. 34)
is below 50, so both round down to 1200. -/
theorem round_precision_two_behavior :
    calculator.round 1235 2 = .ok 1200 ∧ calculator.round 1234 2 = .ok 1200 := by decide

/-- Claim C7 (code bug): round is not idempotent.  At precision 0 the
factor-1 bug of round_zero_precision_not_identity adds one unit on
every application: round(5, 0) = 6 but round(6, 0) = 7, so
round(round(5, 0), 0) = 7 differs from round(5, 0) = 6. -/
theorem round_not_idempotent_at_precision_zero :
    calculator.round 5 0 = .ok 6 ∧ calculator.round 6 0 = .ok 7 ∧
      GoResult.ok (7 : ℤ) ≠ GoResult.ok (6 : ℤ) := by decide

/-- Claim C1 (corrected): conservation holds for Allocate under one
extra hypothesis the claim omits: no product amount * ratio may
overflow int64.  Then, for every non-empty list of non-negative ratios
whose sum is positive and does not overflow, Allocate succeeds, returns
one part per ratio, all carrying the original currency, and the part
amounts sum exactly to the original amount.  Without the
product-overflow hypothesis Allocate can panic instead (see
allocate_product_overflow_breaks_conservation). -/
theorem allocate_conserves_amount (m : Money) (rs : List ℤ)
    (hne : rs ≠ []) (hnn : ∀ r ∈ rs, 0 ≤ r) (hsmax : rs.sum ≤ INT64_MAX)
    (hpos : 0 < rs.sum) (ha : inRange64 m.amount)
    (hprod : ∀ r ∈ rs, inRange64 (m.amount * r)) :
    ∃ parts, Money.Allocate m rs = .ok parts ∧
      (parts.map Money.amount).sum = m.amount ∧
      parts.length = rs.length ∧
      parts.map Money.currency = List.replicate rs.length m.currency :=
  Allocate_ok m rs hne hnn hsmax hpos ha hprod

/-- Claim C1 counterexample: amount 2^62 with ratios [3, 1] satisfies
every hypothesis of the claim (non-empty, non-negative ratios, positive
sum 4 with no ratio-sum overflow, int64 amount), yet Allocate does not
succeed and conserves nothing: the product 2^62 * 3 wraps to -2^62, the
computed parts total 0, the leftover becomes 2^62, and the remainder
loop runs off the end of the 2-part slice -- a runtime panic. -/
theorem allocate_product_overflow_breaks_conservation :
    (∀ r ∈ ([3, 1] : List ℤ), 0 ≤ r) ∧ (0 : ℤ) < ([3, 1] : List ℤ).sum ∧
      ([3, 1] : List ℤ).sum ≤ INT64_MAX ∧ inRange64 ((2 : ℤ) ^ 62) ∧
      Money.Allocate ⟨2 ^ 62, USD⟩ [3, 1] = .panicked := by decide

/-- Witness for allocate_conserves_amount: 100 USD by ratios 33,33,33
gives three parts of total 100. -/
theorem allocate_conserves_amount_witness :
    (([33, 33, 33] : List ℤ) ≠ []) ∧ (∀ r ∈ ([33, 33, 33] : List ℤ), 0 ≤ r) ∧
      ([33, 33, 33] : List ℤ).sum ≤ INT64_MAX ∧ (0 : ℤ) < ([33, 33, 33] : List ℤ).sum ∧
      inRange64 (100 : ℤ) ∧
      (∃ parts, Money.Allocate ⟨100, USD⟩ [33, 33, 33] = .ok parts ∧
        (parts.map Money.amount).sum = 100 ∧
        parts.length = 3 ∧
        parts.map Money.currency = List.replicate 3 USD) :=
  ⟨by decide, by decide, by decide, by decide, by decide,
    allocate_conserves_amount ⟨100, USD⟩ [33, 33, 33] (by decide) (by decide)
      (by decide) (by decide) (by decide) (by decide)⟩

/-- Claim C2 (corrected): the code has no round-robin wrap: the loop
cursor p only ever increases, and nothing ever sends it back to part
0.  What holds instead is that for every valid input whose products
amount * ratio do not overflow int64, the leftover is strictly smaller
than the number of parts, so the cursor never reaches past the last
part, the loop terminates, and Allocate does not panic.  When a product
overflows, the cursor does run past the end of the parts list (see
allocate_cursor_runs_past_end). -/
theorem allocate_no_cursor_overrun (m : Money) (rs : List ℤ)
    (hne : rs ≠ []) (hnn : ∀ r ∈ rs, 0 ≤ r) (hsmax : rs.sum ≤ INT64_MAX)
    (hpos : 0 < rs.sum) (ha : inRange64 m.amount)
    (hprod : ∀ r ∈ rs, inRange64 (m.amount * r)) :
    Money.Allocate m rs ≠ .panicked := by
  obtain ⟨parts, hp, -, -, -⟩ := Allocate_ok m rs hne hnn hsmax hpos ha hprod
  rw [hp]
  simp

/-- Claim C2 counterexample: with amount 2^62 and ratios [1, 3] the
product 2^62 * 3 wraps, the leftover reaches 2^62, and after the last
part the cursor keeps increasing instead of wrapping back to part 0:
the loop indexes past the end of the parts list and panics. -/
theorem allocate_cursor_runs_past_end :
    (∀ r ∈ ([1, 3] : List ℤ), 0 ≤ r) ∧ (0 : ℤ) < ([1, 3] : List ℤ).sum ∧
      ([1, 3] : List ℤ).sum ≤ INT64_MAX ∧ inRange64 ((2 : ℤ) ^ 62) ∧
      Money.Allocate ⟨2 ^ 62, USD⟩ [1, 3] = .panicked := by decide

/-- Witness for allocate_no_cursor_overrun: 7 USD by ratios 2, 3, 5
(leftover 1 after truncation) completes without a panic. -/
theorem allocate_no_cursor_overrun_witness :
    inRange64 (7 : ℤ) ∧ (0 : ℤ) < ([2, 3, 5] : List ℤ).sum ∧
      Money.Allocate ⟨7, USD⟩ [2, 3, 5] ≠ .panicked :=
  ⟨by decide, by decide,
    allocate_no_cursor_overrun ⟨7, USD⟩ [2, 3, 5] (by decide) (by decide)
      (by decide) (by decide) (by decide) (by decide)⟩

/-- Claim C3 (confirmed): for n > 0, Split succeeds with exactly n parts
whose amounts sum to the original amount; for n <= 0 it fails with the
invalid-partition-count error ("split must be higher than zero").  The
hypotheses record that a Money amount and a Go int count are int64
values. -/
theorem split_conservation (m : Money) (n : ℤ) (ha : inRange64 m.amount)
    (hmax : n ≤ INT64_MAX) :
    (0 < n → ∃ parts, Money.Split m n = .ok parts ∧ parts.length = n.toNat ∧
      (parts.map Money.amount).sum = m.amount) ∧
    (n ≤ 0 → Money.Split m n = .err .splitNonPositive) := by
  constructor
  · intro hn
    have hr_lt : m.amount.tmod n < n := Int.tmod_lt_of_pos m.amount hn
    have hr_gt : -n < m.amount.tmod n := by
      rcases le_or_lt 0 m.amount with h | h
      · have := Int.tmod_nonneg n h
        omega
      · exact neg_lt_tmod h.le hn
    have hcnt : (m.amount.tmod n).natAbs ≤ n.toNat := by omega
    have htdt := Int.tdiv_add_tmod m.amount n
    have htn : ((n.toNat : ℤ)) = n := Int.toNat_of_nonneg hn.le
    rw [Split_ok m n hn hmax ha]
    refine ⟨_, rfl, ?_, ?_⟩
    · simp only [List.length_append, List.length_replicate]
      omega
    · simp only [List.map_append, List.map_replicate, List.sum_append,
        List.sum_replicate, nsmul_eq_mul]
      push_cast [Nat.cast_sub hcnt]
      rw [htn]
      rcases lt_or_le m.amount 0 with hA | hA
      · rw [if_pos hA]
        have hrle : m.amount.tmod n ≤ 0 := tmod_nonpos n hA.le
        rw [abs_of_nonpos hrle]
        ring_nf
        ring_nf at htdt
        linarith
      · rw [if_neg (by omega : ¬m.amount < 0)]
        have hrge : 0 ≤ m.amount.tmod n := Int.tmod_nonneg n hA
        rw [abs_of_nonneg hrge]
        ring_nf
        ring_nf at htdt
        linarith
  · intro hn
    simp [Money.Split, hn]

/-- Witness for split_conservation: 10.00 USD into 3 parts totals 10.00. -/
theorem split_conservation_witness :
    inRange64 (1000 : ℤ) ∧ (3 : ℤ) ≤ INT64_MAX ∧ (0 : ℤ) < 3 ∧
      (∃ parts, Money.Split ⟨1000, USD⟩ 3 = .ok parts ∧ parts.length = (3 : ℤ).toNat ∧
        (parts.map Money.amount).sum = 1000) :=
  ⟨by decide, by decide, by decide,
    (split_conservation ⟨1000, USD⟩ 3 (by decide) (by decide)).1 (by decide)⟩

/-- Claim C4 (confirmed): any two parts of a split differ by at most one
smallest unit, earlier-indexed parts never carry a smaller absolute
amount than later ones, and the two stated scenarios hold:
split(1000, 3) is [334, 333, 333] and split(-1000, 3) is
[-334, -333, -333]. -/
theorem split_fairness (m : Money) (n : ℤ) (hn : 0 < n) (hmax : n ≤ INT64_MAX)
    (ha : inRange64 m.amount) :
    (∃ parts, Money.Split m n = .ok parts ∧
      (∀ p ∈ parts, ∀ s ∈ parts, p.amount - s.amount ≤ 1) ∧
      (∀ (i j : ℕ) (hj : j < parts.length) (hij : i ≤ j),
        |(parts.get ⟨j, hj⟩).amount| ≤
          |(parts.get ⟨i, Nat.lt_of_le_of_lt hij hj⟩).amount|)) ∧
    Money.Split ⟨1000, USD⟩ 3 = .ok [⟨334, USD⟩, ⟨333, USD⟩, ⟨333, USD⟩] ∧
    Money.Split ⟨-1000, USD⟩ 3 = .ok [⟨-334, USD⟩, ⟨-333, USD⟩, ⟨-333, USD⟩] := by
  refine ⟨?_, by decide, by decide⟩
  rw [Split_ok m n hn hmax ha]
  set w : ℤ := if m.amount < 0 then -1 else 1 with hw
  have hwb : -1 ≤ w ∧ w ≤ 1 := by
    rw [hw]
    rcases lt_or_le m.amount 0 with h | h
    · rw [if_pos h]; omega
    · rw [if_neg (by omega)]; omega
  have habs : |m.amount.tdiv n| ≤ |m.amount.tdiv n + w| := by
    rw [hw]
    rcases lt_or_le m.amount 0 with h | h
    · rw [if_pos h]
      have hq : m.amount.tdiv n ≤ 0 := tdiv_nonpos' h.le hn.le
      rw [abs_of_nonpos hq, abs_of_nonpos (by omega)]
      omega
    · rw [if_neg (by omega)]
      have hq : 0 ≤ m.amount.tdiv n := tdiv_nonneg' h hn.le
      rw [abs_of_nonneg hq, abs_of_nonneg (by omega)]
      omega
  refine ⟨_, rfl, ?_, ?_⟩
  · intro p hp s hs
    have hmem : ∀ t : Money,
        t ∈ (List.replicate (m.amount.tmod n).natAbs
               (Money.mk (m.amount.tdiv n + w) m.currency) ++
             List.replicate (n.toNat - (m.amount.tmod n).natAbs)
               (Money.mk (m.amount.tdiv n) m.currency)) →
        t.amount = m.amount.tdiv n + w ∨ t.amount = m.amount.tdiv n := by
      intro t ht
      rcases List.mem_append.mp ht with h | h
      · left; rw [List.eq_of_mem_replicate h]
      · right; rw [List.eq_of_mem_replicate h]
    rcases hmem p hp with hp' | hp' <;> rcases hmem s hs with hs' | hs' <;>
      rw [hp', hs'] <;> omega
  · intro i j hj hij
    rw [get_replicate_append, get_replicate_append]
    rcases lt_or_le j (m.amount.tmod n).natAbs with hjc | hjc
    · rw [if_pos hjc, if_pos (Nat.lt_of_le_of_lt hij hjc)]
    · rw [if_neg (by omega)]
      rcases lt_or_le i (m.amount.tmod n).natAbs with hic | hic
      · rw [if_pos hic]
        exact habs
      · rw [if_neg (by omega)]

/-- Witness for split_fairness at 10.00 USD into 3 parts. -/
theorem split_fairness_witness :
    (0 : ℤ) < 3 ∧ (3 : ℤ) ≤ INT64_MAX ∧ inRange64 (1000 : ℤ) ∧
      ((∃ parts, Money.Split ⟨1000, USD⟩ 3 = .ok parts ∧
          (∀ p ∈ parts, ∀ s ∈ parts, p.amount - s.amount ≤ 1) ∧
          (∀ (i j : ℕ) (hj : j < parts.length) (hij : i ≤ j),
            |(parts.get ⟨j, hj⟩).amount| ≤
              |(parts.get ⟨i, Nat.lt_of_le_of_lt hij hj⟩).amount|)) ∧
        Money.Split ⟨1000, USD⟩ 3 = .ok [⟨334, USD⟩, ⟨333, USD⟩, ⟨333, USD⟩] ∧
        Money.Split ⟨-1000, USD⟩ 3 = .ok [⟨-334, USD⟩, ⟨-333, USD⟩, ⟨-333, USD⟩]) :=
  ⟨by decide, by decide, by decide, split_fairness ⟨1000, USD⟩ 3 (by decide) (by decide) (by decide)⟩

end Moneykit
